import Mathlib

/-!
Verification of the `ride-the-bus` decision-tree solver.

The development shallowly embeds the Rust sources:
* `src/card.rs`    — playing cards, deck enumeration, card formatting/parsing;
* `src/decision/mod.rs`    — the `Choice` abstraction and the `Cashout` choice;
* `src/decision/solver.rs` — the recursive decision-tree solver;
* `src/main.rs`    — the concrete game rules (PickColor, PickLatitude,
  PickContained, PickSuit).

`f64` values are modelled by the inductive type `F` below: NaN, +infinity and
finite values, with finite values carried as exact rationals.  Every value
reachable in this program is nonnegative, so negative infinities and signed
zeros are not modelled.  IEEE rounding of finite results is not modelled
either: each theorem below compares values that the program computes by
identical (or term-wise identical) sequences of operations, so the comparison
outcomes agree with the double-precision run.
-/

/-! ## Card model (src/card.rs) -/

/-- A playing card, `PlayingCard(u8)` in the source, holding a value `0..52`.
The low two bits encode the suit. -/
structure PlayingCard where
  val : Nat
deriving DecidableEq, Repr

/-- `self.0 & 0b11`: hearts = 0, diamonds = 1, spades = 2, clubs = 3. -/
def PlayingCard.suit (c : PlayingCard) : Nat := c.val % 4

/-- `(self.0 & 0b10) >> 1`: red = 0, black = 1. -/
def PlayingCard.color (c : PlayingCard) : Nat := c.val / 2 % 2

/-- `(self.0 >> 2) + 2`: ranks 2-14, with 11 = J, 12 = Q, 13 = K, 14 = A. -/
def PlayingCard.rank (c : PlayingCard) : Nat := c.val / 4 + 2

/-- `PlayingCard::deck_iter`: the 52 cards `0..52`, in order. -/
def deck_iter : List PlayingCard := (List.range 52).map PlayingCard.mk

/-- `RANK_LABELS` from src/card.rs. -/
def RANK_LABELS : List String :=
  ["2", "3", "4", "5", "6", "7", "8", "9", "10", "J", "Q", "K", "A"]

/-- `SUIT_LABELS` from src/card.rs. -/
def SUIT_LABELS : List String := ["H", "D", "S", "C"]

/-- The `Display` impl: `RANK_LABELS[rank - 2]` followed by `SUIT_LABELS[suit]`.
(The Rust indexing panics out of bounds; `getD` returns `""` there, which is
never reached for deck members.) -/
def PlayingCard.fmt (c : PlayingCard) : String :=
  (RANK_LABELS.getD (c.rank - 2) "") ++ (SUIT_LABELS.getD c.suit "")

/-- `str::to_uppercase`, restricted to the ASCII labels this program uses:
uppercase every character. -/
def strToUpper (s : String) : String := ⟨s.data.map Char.toUpper⟩

/-- The `FromStr` impl: uppercase the input, then scan the deck for the card
whose formatted label matches.  `none` models `Err(InvalidCardError)`. -/
def PlayingCard.from_str (s : String) : Option PlayingCard :=
  let u := strToUpper s
  deck_iter.find? (fun c => c.fmt == u)

/-! ## Float model -/

/-- Model of the `f64` values reachable in this program: NaN, +infinity, or a
finite value carried as an exact rational.  All reachable finite values are
nonnegative, so negative values, -infinity and -0.0 are not modelled. -/
inductive F where
  | nan : F
  | inf : F
  | num : ℚ → F
deriving DecidableEq, Repr

/-- IEEE addition restricted to the modelled values. -/
def F.add : F → F → F
  | .nan, _ => .nan
  | _, .nan => .nan
  | .inf, _ => .inf
  | _, .inf => .inf
  | .num a, .num b => .num (a + b)

/-- IEEE multiplication restricted to the modelled values
(`inf * 0 = nan`). -/
def F.mul : F → F → F
  | .nan, _ => .nan
  | _, .nan => .nan
  | .inf, .inf => .inf
  | .inf, .num b => if b = 0 then .nan else .inf
  | .num a, .inf => if a = 0 then .nan else .inf
  | .num a, .num b => .num (a * b)

/-- IEEE division restricted to the modelled values
(`0/0 = nan`, `x/0 = inf` for finite `x > 0`). -/
def F.div : F → F → F
  | .nan, _ => .nan
  | _, .nan => .nan
  | .inf, .inf => .nan
  | .inf, .num _ => .inf
  | .num _, .inf => .num 0
  | .num a, .num b => if b = 0 then (if a = 0 then .nan else .inf) else .num (a / b)

/-- IEEE `<`: any comparison with NaN is false. -/
def F.lt : F → F → Bool
  | .nan, _ => false
  | _, .nan => false
  | .inf, _ => false
  | .num _, .inf => true
  | .num a, .num b => decide (a < b)

/-- `f64::total_cmp` restricted to the modelled values.  NaN is placed
greatest (the position of a positive quiet NaN in the IEEE total order; no
theorem below compares a NaN with `total_cmp`). -/
def F.total_cmp : F → F → Ordering
  | .nan, .nan => .eq
  | .nan, _ => .gt
  | _, .nan => .lt
  | .inf, .inf => .eq
  | .inf, .num _ => .gt
  | .num _, .inf => .lt
  | .num a, .num b => if a < b then .lt else if a = b then .eq else .gt

/-- Sum of a list of `F` values, accumulated left-to-right from `0.0` the way
the solver's `ev_sum` loop does. -/
def sumF (l : List F) : F := l.foldl F.add (F.num 0)

/-- The `1e-6` "effectively zero" pot threshold from the solver. -/
def potEps : F := F.num (1 / 1000000)

/-! ## Choice abstraction (src/decision/mod.rs) -/

/-- A choice: a `Box<dyn Choice>` in the source.  `name` models the `Debug`
label every choice carries; `score` is `Choice::score`; `next` is the
choice's next decision as consumed by the solver (`choice.next_decision()`
used as an `Option`: `none` = no further decision).  Representing the next
decision as data makes every choice a finite tree, matching the finite game
definitions the program builds. -/
inductive Choice where
  | mk (name : String) (score : List PlayingCard → F) (next : Option (List Choice))

def Choice.name : Choice → String
  | .mk n _ _ => n

def Choice.score : Choice → List PlayingCard → F
  | .mk _ s _ => s

def Choice.next : Choice → Option (List Choice)
  | .mk _ _ nx => nx

/-- The built-in `Cashout` choice: score always `1.0`, no further decision
(`DiscreteDecision::empty()` in mod.rs; the solver treats an absent and an
empty next decision identically for the realized value). -/
def Cashout : Choice := .mk "Cashout" (fun _ => F.num 1) none

/-! ## Solver results (src/decision/solver.rs data) -/

mutual
/-- `DiscreteDecisionTree { choices, outcomes }`. -/
inductive DDTree where
  | mk (choices : List ChoiceEval) (outcomes : Nat)

/-- `ChoiceEval { choice, expected_value, random_events }`. -/
inductive ChoiceEval where
  | mk (choice : Choice) (expected_value : F) (random_events : List REOutcome)

/-- `RandomEventOutcome { event, value, next_decision_tree }`. -/
inductive REOutcome where
  | mk (event : PlayingCard) (value : F) (next_decision_tree : Option DDTree)
end

def DDTree.choices : DDTree → List ChoiceEval
  | .mk cs _ => cs

def DDTree.outcomes : DDTree → Nat
  | .mk _ o => o

def ChoiceEval.choice : ChoiceEval → Choice
  | .mk c _ _ => c

def ChoiceEval.expected_value : ChoiceEval → F
  | .mk _ ev _ => ev

def ChoiceEval.random_events : ChoiceEval → List REOutcome
  | .mk _ _ re => re

def REOutcome.event : REOutcome → PlayingCard
  | .mk e _ _ => e

def REOutcome.value : REOutcome → F
  | .mk _ v _ => v

def REOutcome.next_decision_tree : REOutcome → Option DDTree
  | .mk _ _ t => t

/-- `RandomEventOutcome::count`: 1 with no child tree, else the child tree's
stored outcome count. -/
def REOutcome.count (o : REOutcome) : Nat :=
  (o.next_decision_tree.map DDTree.outcomes).getD 1

/-- `Iterator::max_by` with `f64::total_cmp` on the expected values, as used
by `DiscreteDecisionTree::optimal`.  Rust's `max_by` keeps the later element
when the comparison is not `Greater`, so equally-maximal elements resolve to
the last one. -/
def maxByEV : List ChoiceEval → Option ChoiceEval
  | [] => none
  | x :: xs =>
    some (xs.foldl
      (fun a b =>
        if F.total_cmp a.expected_value b.expected_value = .gt then a else b) x)

/-- `DiscreteDecisionTree::optimal`. -/
def DDTree.optimal (t : DDTree) : Option ChoiceEval := maxByEV t.choices

/-! ## The solver (src/decision/solver.rs) -/

/-- The candidate cards enumerated by `ChoiceEval::evaluate`:
`PlayingCard::deck_iter().filter(|card| !history.contains(card))`. -/
def candidates (history : List PlayingCard) : List PlayingCard :=
  deck_iter.filter (fun card => !(history.contains card))

theorem Choice.sizeOf_next (c : Choice) (d : List Choice) (h : c.next = some d) :
    sizeOf d < sizeOf c := by
  cases c with
  | mk n s nx =>
    cases nx with
    | none => simp [Choice.next] at h
    | some d0 =>
      simp [Choice.next] at h
      subst h
      simp
      omega

mutual
/-- `DiscreteDecisionTree::compute`: evaluate every choice of the decision,
then store the outcome count as the sum, over all choices and all of their
random events (`flat_map`), of each outcome's count. -/
def computeTree (decision : List Choice) (pot : F) (history : List PlayingCard) :
    DDTree :=
  let evaluated := evalChoices decision pot history
  DDTree.mk evaluated
    ((evaluated.map (fun ce => (ce.random_events.map REOutcome.count).sum)).sum)
termination_by (sizeOf decision, 2, 0)

/-- The `decision.into_iter().map(...)` loop of `compute`, element by
element. -/
def evalChoices (decision : List Choice) (pot : F) (history : List PlayingCard) :
    List ChoiceEval :=
  match decision with
  | [] => []
  | c :: cs => evalChoice c pot history :: evalChoices cs pot history
termination_by (sizeOf decision, 1, 0)

/-- `ChoiceEval::evaluate`: enumerate every deck card not already in the
history, evaluate each outcome, accumulate `ev_sum`, and divide by the number
of enumerated events. -/
def evalChoice (choice : Choice) (pot : F) (history : List PlayingCard) :
    ChoiceEval :=
  let events := evalOutcomes (candidates history) choice pot history
  let ev_sum := events.foldl (fun s e => F.add s e.value) (F.num 0)
  ChoiceEval.mk choice (F.div ev_sum (F.num events.length)) events
termination_by (sizeOf choice, 1, 0)

/-- The `for card in card_iter` loop of `ChoiceEval::evaluate`, element by
element. -/
def evalOutcomes (cards : List PlayingCard) (choice : Choice) (pot : F)
    (history : List PlayingCard) : List REOutcome :=
  match cards with
  | [] => []
  | card :: rest =>
    evalOutcome card choice pot history :: evalOutcomes rest choice pot history
termination_by (sizeOf choice, 0, sizeOf cards)

/-- `RandomEventOutcome::evaluate`: prepend the event card to the history,
rescale the pot by the choice's score; a pot below `1e-6` is a loss worth 0;
otherwise compute the next decision's tree (when one exists) and realize the
value as its optimal choice's expected value, defaulting to the new pot. -/
def evalOutcome (event : PlayingCard) (choice : Choice) (pot : F)
    (history : List PlayingCard) : REOutcome :=
  let new_history := event :: history
  let new_pot := F.mul pot (choice.score new_history)
  if F.lt new_pot potEps then
    REOutcome.mk event (F.num 0) none
  else
    match hnx : choice.next with
    | none => REOutcome.mk event new_pot none
    | some d =>
      let next_tree := computeTree d new_pot new_history
      REOutcome.mk event
        (((next_tree.optimal).map ChoiceEval.expected_value).getD new_pot)
        (some next_tree)
termination_by (sizeOf choice, 0, 0)
decreasing_by
  simp_wf
  exact Prod.Lex.left _ _ (Choice.sizeOf_next choice d hnx)
end

/-- `DiscreteDecisionTree::solve`: compute from pot `1.0` and empty
history. -/
def solve (first_decision : List Choice) : DDTree :=
  computeTree first_decision (F.num 1) []

/-! ## Basic facts about the float model -/

theorem F.add_comm_law (a b : F) : F.add a b = F.add b a := by
  cases a <;> cases b <;> simp [F.add, add_comm]

theorem F.add_assoc_law (a b c : F) : F.add (F.add a b) c = F.add a (F.add b c) := by
  cases a <;> cases b <;> cases c <;> simp [F.add, add_assoc]

instance : RightCommutative F.add :=
  ⟨fun b a₁ a₂ => by
    rw [F.add_assoc_law, F.add_assoc_law, F.add_comm_law a₁ a₂]⟩

/-- `total_cmp` answers `eq` only on identical values. -/
theorem F.total_cmp_eq_iff (a b : F) : F.total_cmp a b = .eq ↔ a = b := by
  cases a <;> cases b <;> simp [F.total_cmp]
  case num.num p q =>
    rcases lt_trichotomy p q with h | h | h
    · simp [h, h.ne]
    · simp [h]
    · simp [h.ne.symm, lt_asymm h]

/-- Swapping the arguments of `total_cmp` swaps the answer. -/
theorem F.total_cmp_swap_eq (a b : F) :
    F.total_cmp b a = (F.total_cmp a b).swap := by
  cases a <;> cases b <;> simp [F.total_cmp, Ordering.swap]
  case num.num p q =>
    rcases lt_trichotomy p q with h | h | h
    · simp [h, h.ne.symm, lt_asymm h, Ordering.swap]
    · simp [h, Ordering.swap]
    · simp [h, h.ne.symm, lt_asymm h, Ordering.swap]

/-- One `max_by` comparison step on expected values. -/
def maxF (a b : F) : F := if F.total_cmp a b = .gt then a else b

theorem maxF_comm (a b : F) : maxF a b = maxF b a := by
  unfold maxF
  rw [F.total_cmp_swap_eq a b]
  rcases h : F.total_cmp a b with _ | _ | _ <;> simp [Ordering.swap]
  exact ((F.total_cmp_eq_iff a b).mp h).symm

theorem F.total_cmp_num_gt {p q : ℚ} :
    F.total_cmp (.num p) (.num q) = .gt ↔ q < p := by
  simp only [F.total_cmp]
  rcases lt_trichotomy p q with h | h | h
  · simp [h, lt_asymm h]
  · simp [h, lt_irrefl]
  · simp [h, lt_asymm h, (h.ne : q ≠ p).symm]

theorem F.total_cmp_num_ngt {p q : ℚ} :
    (F.total_cmp (.num p) (.num q) ≠ .gt) ↔ p ≤ q := by
  rw [Ne, F.total_cmp_num_gt, not_lt]

theorem F.total_cmp_gt_trans {a b c : F} (h1 : F.total_cmp a b = .gt)
    (h2 : F.total_cmp b c = .gt) : F.total_cmp a c = .gt := by
  cases a <;> cases b <;> cases c <;>
    (try simp only [F.total_cmp_num_gt] at h1 h2 ⊢) <;>
    first
      | exact lt_trans h2 h1
      | ((try simp only [F.total_cmp] at h1 h2 ⊢) <;> simp_all)

theorem F.total_cmp_ngt_trans {a b c : F} (h1 : F.total_cmp a b ≠ .gt)
    (h2 : F.total_cmp b c ≠ .gt) : F.total_cmp a c ≠ .gt := by
  cases a <;> cases b <;> cases c <;>
    (try simp only [F.total_cmp_num_ngt] at h1 h2 ⊢) <;>
    first
      | exact le_trans h1 h2
      | ((try simp only [F.total_cmp] at h1 h2 ⊢) <;> simp_all)

theorem maxF_assoc (a b c : F) : maxF (maxF a b) c = maxF a (maxF b c) := by
  by_cases hab : F.total_cmp a b = .gt
  · by_cases hbc : F.total_cmp b c = .gt
    · have hac := F.total_cmp_gt_trans hab hbc
      simp [maxF, hab, hbc, hac]
    · simp [maxF, hab, hbc]
  · by_cases hbc : F.total_cmp b c = .gt
    · simp [maxF, hab, hbc]
    · have hac := F.total_cmp_ngt_trans hab hbc
      simp [maxF, hab, hbc, hac]

instance : Std.Commutative maxF := ⟨maxF_comm⟩
instance : Std.Associative maxF := ⟨maxF_assoc⟩

/-! ## Unfolding lemmas for the solver -/

theorem evalChoices_eq_map (d : List Choice) (pot : F) (h : List PlayingCard) :
    evalChoices d pot h = d.map (fun c => evalChoice c pot h) := by
  induction d with
  | nil => simp [evalChoices]
  | cons c cs ih => rw [evalChoices, ih, List.map_cons]

theorem evalOutcomes_eq_map (cards : List PlayingCard) (c : Choice) (pot : F)
    (h : List PlayingCard) :
    evalOutcomes cards c pot h = cards.map (fun card => evalOutcome card c pot h) := by
  induction cards with
  | nil => simp [evalOutcomes]
  | cons card rest ih => rw [evalOutcomes, ih, List.map_cons]

theorem computeTree_choices (d : List Choice) (pot : F) (h : List PlayingCard) :
    (computeTree d pot h).choices = evalChoices d pot h := by
  rw [computeTree]
  rfl

theorem computeTree_outcomes (d : List Choice) (pot : F) (h : List PlayingCard) :
    (computeTree d pot h).outcomes =
      ((evalChoices d pot h).map
        (fun ce => (ce.random_events.map REOutcome.count).sum)).sum := by
  rw [computeTree]
  rfl

theorem computeTree_optimal (d : List Choice) (pot : F) (h : List PlayingCard) :
    (computeTree d pot h).optimal = maxByEV (evalChoices d pot h) := by
  rw [DDTree.optimal, computeTree_choices]

theorem evalChoice_choice (c : Choice) (pot : F) (h : List PlayingCard) :
    (evalChoice c pot h).choice = c := by
  rw [evalChoice]
  rfl

theorem evalChoice_events (c : Choice) (pot : F) (h : List PlayingCard) :
    (evalChoice c pot h).random_events = evalOutcomes (candidates h) c pot h := by
  rw [evalChoice]
  rfl

theorem evalChoice_ev (c : Choice) (pot : F) (h : List PlayingCard) :
    (evalChoice c pot h).expected_value =
      F.div (sumF ((evalOutcomes (candidates h) c pot h).map REOutcome.value))
        (F.num ((evalOutcomes (candidates h) c pot h).length)) := by
  rw [evalChoice]
  simp only [ChoiceEval.expected_value, sumF, List.foldl_map]

theorem evalOutcome_lost (card : PlayingCard) (c : Choice) (pot : F)
    (h : List PlayingCard)
    (hlt : F.lt (F.mul pot (c.score (card :: h))) potEps = true) :
    evalOutcome card c pot h = .mk card (F.num 0) none := by
  rw [evalOutcome]
  simp [hlt]

theorem evalOutcome_leaf (card : PlayingCard) (c : Choice) (pot : F)
    (h : List PlayingCard)
    (hlt : F.lt (F.mul pot (c.score (card :: h))) potEps = false)
    (hn : c.next = none) :
    evalOutcome card c pot h = .mk card (F.mul pot (c.score (card :: h))) none := by
  rw [evalOutcome]
  simp only [hlt, Bool.false_eq_true, if_false]
  split <;> simp_all

theorem evalOutcome_child (card : PlayingCard) (c : Choice) (pot : F)
    (h : List PlayingCard) (d : List Choice)
    (hlt : F.lt (F.mul pot (c.score (card :: h))) potEps = false)
    (hn : c.next = some d) :
    evalOutcome card c pot h =
      .mk card
        ((((computeTree d (F.mul pot (c.score (card :: h))) (card :: h)).optimal).map
            ChoiceEval.expected_value).getD (F.mul pot (c.score (card :: h))))
        (some (computeTree d (F.mul pot (c.score (card :: h))) (card :: h))) := by
  rw [evalOutcome]
  simp only [hlt, Bool.false_eq_true, if_false]
  split <;> simp_all

/-! ## Shared helper lemmas -/

theorem F.total_cmp_self (a : F) : F.total_cmp a a = .eq := by
  cases a <;> simp [F.total_cmp]

/-- Pigeonhole: with fewer than 52 cards in the history, some deck card is
still a candidate. -/
theorem candidates_ne_nil (h : List PlayingCard) (hlen : h.length < 52) :
    candidates h ≠ [] := by
  intro hemp
  have hsub : deck_iter ⊆ h := by
    intro c hc
    by_contra hch
    have hmem : c ∈ candidates h := by
      rw [candidates, List.mem_filter]
      exact ⟨hc, by simpa using hch⟩
    rw [hemp] at hmem
    exact absurd hmem (List.not_mem_nil c)
  have hnd : deck_iter.Nodup := by decide
  have hle := (hnd.subperm hsub).length_le
  have hdl : deck_iter.length = 52 := by decide
  omega

theorem sumF_replicate_one (n : Nat) :
    sumF (List.replicate n (F.num 1)) = F.num n := by
  suffices hgen : ∀ (k : ℚ), (List.replicate n (F.num 1)).foldl F.add (F.num k) = F.num (k + n) by
    have := hgen 0
    rw [sumF, this, zero_add]
  induction n with
  | zero => intro k; simp
  | succ m ih =>
    intro k
    rw [List.replicate_succ, List.foldl_cons]
    have : F.add (F.num k) (F.num 1) = F.num (k + 1) := rfl
    rw [this, ih (k + 1)]
    congr 1
    push_cast
    ring

/-- A choice with no next decision always produces a childless outcome. -/
theorem evalOutcome_tree_none (card : PlayingCard) (c : Choice) (pot : F)
    (h : List PlayingCard) (hn : c.next = none) :
    (evalOutcome card c pot h).next_decision_tree = none := by
  cases hlt : F.lt (F.mul pot (c.score (card :: h))) potEps with
  | true =>
    rw [evalOutcome_lost card c pot h hlt]
    rfl
  | false =>
    rw [evalOutcome_leaf card c pot h hlt hn]
    rfl

theorem evalOutcome_count_one (card : PlayingCard) (c : Choice) (pot : F)
    (h : List PlayingCard) (hn : c.next = none) :
    (evalOutcome card c pot h).count = 1 := by
  rw [REOutcome.count, evalOutcome_tree_none card c pot h hn]
  rfl

/-- A choice whose score is identically `1.0` and whose next decision is
absent has expected value exactly `1.0` at pot `1.0`, over any nonempty
candidate enumeration. -/
theorem evalChoice_const_one_ev (c : Choice)
    (hs : ∀ hist, c.score hist = F.num 1) (hn : c.next = none)
    (h : List PlayingCard) (hne : candidates h ≠ []) :
    (evalChoice c (F.num 1) h).expected_value = F.num 1 := by
  rw [evalChoice_ev, evalOutcomes_eq_map, List.map_map]
  have hval : ∀ card ∈ candidates h,
      (REOutcome.value ∘ fun card => evalOutcome card c (F.num 1) h) card
        = F.num 1 := by
    intro card _
    have hnp : F.mul (F.num 1) (c.score (card :: h)) = F.num 1 := by
      rw [hs]
      show F.num (1 * 1) = F.num 1
      norm_num
    have hlt : F.lt (F.mul (F.num 1) (c.score (card :: h))) potEps = false := by
      rw [hnp]
      show decide ((1 : ℚ) < 1 / 1000000) = false
      norm_num
    simp [Function.comp, evalOutcome_leaf card c _ h hlt hn, REOutcome.value, hnp]
  rw [List.map_congr_left hval, List.map_const', List.length_map,
    sumF_replicate_one]
  have hlen0 : (candidates h).length ≠ 0 := by
    intro h0
    exact hne (List.length_eq_zero.mp h0)
  show F.div (F.num ((candidates h).length : ℚ)) (F.num ((candidates h).length : ℚ)) = F.num 1
  rw [F.div]
  simp [Nat.cast_ne_zero, hlen0, div_self]

/-- A 51-card history (every deck card except the last one), used to
instantiate theorems on a small concrete input. -/
def bigHist51 : List PlayingCard := (List.range 51).map PlayingCard.mk

theorem candidates_bigHist51 : candidates bigHist51 = [⟨51⟩] := by decide

/-! ## Claims -/

/-- C5: a decision with zero choices is a valid terminal state, never a
runtime failure: the solved tree's `optimal` is `none` and its outcome count
is `0`, both for `solve` and for `compute` at any pot and history. -/
theorem c5_zero_choices_terminal :
    (solve []).optimal = none ∧ (solve []).outcomes = 0 ∧
    ∀ (pot : F) (h : List PlayingCard),
      (computeTree [] pot h).optimal = none ∧ (computeTree [] pot h).outcomes = 0 := by
  have hopt : ∀ (pot : F) (h : List PlayingCard),
      (computeTree [] pot h).optimal = none := by
    intro pot h
    rw [computeTree_optimal, evalChoices_eq_map]
    rfl
  have hout : ∀ (pot : F) (h : List PlayingCard),
      (computeTree [] pot h).outcomes = 0 := by
    intro pot h
    rw [computeTree_outcomes, evalChoices_eq_map]
    rfl
  exact ⟨hopt _ _, hout _ _, fun pot h => ⟨hopt pot h, hout pot h⟩⟩

/-- C2: for a history of fewer than 52 cards the candidate enumeration (every
deck card not already in the history) is nonempty, and the choice's expected
value is the arithmetic mean — the sum of the realized values over exactly the
candidate cards, divided by the number of candidates. -/
theorem c2_expected_value_is_mean (c : Choice) (pot : F) (h : List PlayingCard)
    (hlen : h.length < 52) :
    candidates h ≠ [] ∧
    (evalChoice c pot h).expected_value =
      F.div (sumF ((candidates h).map (fun card => (evalOutcome card c pot h).value)))
        (F.num ((candidates h).length)) := by
  refine ⟨candidates_ne_nil h hlen, ?_⟩
  rw [evalChoice_ev, evalOutcomes_eq_map, List.map_map, List.length_map]
  rfl

/-- C2 witness at a concrete input. -/
theorem c2_expected_value_is_mean_witness :
    bigHist51.length < 52 ∧
    (candidates bigHist51 ≠ [] ∧
      (evalChoice Cashout (F.num 1) bigHist51).expected_value =
        F.div (sumF ((candidates bigHist51).map
            (fun card => (evalOutcome card Cashout (F.num 1) bigHist51).value)))
          (F.num ((candidates bigHist51).length))) :=
  ⟨by decide, c2_expected_value_is_mean Cashout (F.num 1) bigHist51 (by decide)⟩

/-- C1: for a candidate card, the outcome is evaluated on the new history
(card prepended) and new pot (pot times score): below the `1e-6` threshold the
outcome is a childless loss of realized value 0; otherwise, with no next
decision it is a childless leaf of realized value `newPot`; with a next
decision it is a child holding the recursively computed sub-tree whose
realized value is the sub-tree's optimal choice's expected value, defaulting
to `newPot` when the sub-tree has no choices. -/
theorem c1_outcome_evaluation (choice : Choice) (pot : F)
    (history : List PlayingCard) (card : PlayingCard)
    (hcand : card ∈ candidates history) :
    (F.lt (F.mul pot (choice.score (card :: history))) potEps = true →
      evalOutcome card choice pot history = .mk card (F.num 0) none)
    ∧ (F.lt (F.mul pot (choice.score (card :: history))) potEps = false →
        choice.next = none →
        evalOutcome card choice pot history =
          .mk card (F.mul pot (choice.score (card :: history))) none)
    ∧ (∀ d, F.lt (F.mul pot (choice.score (card :: history))) potEps = false →
        choice.next = some d →
        evalOutcome card choice pot history =
          .mk card
            ((((computeTree d (F.mul pot (choice.score (card :: history)))
                  (card :: history)).optimal).map ChoiceEval.expected_value).getD
              (F.mul pot (choice.score (card :: history))))
            (some (computeTree d (F.mul pot (choice.score (card :: history)))
              (card :: history)))
        ∧ (d = [] →
            (evalOutcome card choice pot history).value =
              F.mul pot (choice.score (card :: history)))) := by
  refine ⟨evalOutcome_lost card choice pot history,
    evalOutcome_leaf card choice pot history, ?_⟩
  intro d hlt hn
  refine ⟨evalOutcome_child card choice pot history d hlt hn, ?_⟩
  intro hd
  subst hd
  rw [evalOutcome_child card choice pot history [] hlt hn]
  rw [computeTree_optimal, evalChoices_eq_map]
  rfl

/-- C1 witness at a concrete input. -/
theorem c1_outcome_evaluation_witness :
    ((⟨51⟩ : PlayingCard) ∈ candidates bigHist51) ∧
    (F.lt (F.mul (F.num 1) (Cashout.score (⟨51⟩ :: bigHist51))) potEps = false →
      Cashout.next = none →
      evalOutcome ⟨51⟩ Cashout (F.num 1) bigHist51 =
        .mk ⟨51⟩ (F.mul (F.num 1) (Cashout.score (⟨51⟩ :: bigHist51))) none) :=
  ⟨by decide,
    (c1_outcome_evaluation Cashout (F.num 1) bigHist51 ⟨51⟩ (by decide)).2.1⟩

/-- C6: a choice whose score is identically `1.0` and whose next decision is
absent — the built-in Cashout choice is such a choice — has expected value
exactly `1.0` at pot `1.0` for every history of fewer than 52 cards. -/
theorem c6_terminal_choice_ev_one (c : Choice)
    (hs : ∀ hist, c.score hist = F.num 1) (hn : c.next = none)
    (h : List PlayingCard) (hlen : h.length < 52) :
    (evalChoice c (F.num 1) h).expected_value = F.num 1 :=
  evalChoice_const_one_ev c hs hn h (candidates_ne_nil h hlen)

/-- C6 witness: the built-in Cashout choice at a concrete history. -/
theorem c6_terminal_choice_ev_one_witness :
    ((∀ hist, Cashout.score hist = F.num 1) ∧ Cashout.next = none ∧
      bigHist51.length < 52) ∧
    (evalChoice Cashout (F.num 1) bigHist51).expected_value = F.num 1 :=
  ⟨⟨fun _ => rfl, rfl, by decide⟩,
    c6_terminal_choice_ev_one Cashout (fun _ => rfl) rfl bigHist51 (by decide)⟩

/-- C9: the solver is a pure function of its inputs: solving equal decision
definitions yields identical trees — in particular identical expected values
and identical outcome counts. -/
theorem c9_solve_deterministic (d d' : List Choice) (hd : d = d') :
    solve d = solve d' ∧
    (solve d).choices.map ChoiceEval.expected_value =
      (solve d').choices.map ChoiceEval.expected_value ∧
    (solve d).outcomes = (solve d').outcomes := by
  subst hd
  exact ⟨rfl, rfl, rfl⟩

/-- C9 witness at a concrete decision. -/
theorem c9_solve_deterministic_witness :
    ([Cashout] = [Cashout]) ∧
    (solve [Cashout] = solve [Cashout] ∧
      (solve [Cashout]).choices.map ChoiceEval.expected_value =
        (solve [Cashout]).choices.map ChoiceEval.expected_value ∧
      (solve [Cashout]).outcomes = (solve [Cashout]).outcomes) :=
  ⟨rfl, c9_solve_deterministic [Cashout] [Cashout] rfl⟩

/-- C10: with every deck card already in the history, the candidate
enumeration is empty and the unguarded average divides `0.0` by `0`: the
expected value is NaN (the evaluation is total — no error, no panic). -/
theorem c10_full_history_nan (c : Choice) (pot : F) (h : List PlayingCard)
    (hfull : ∀ card ∈ deck_iter, card ∈ h) :
    candidates h = [] ∧
    (evalChoice c pot h).random_events = [] ∧
    (evalChoice c pot h).expected_value = F.nan := by
  have hcand : candidates h = [] := by
    rw [candidates, List.filter_eq_nil_iff]
    intro card hc
    simpa using hfull card hc
  refine ⟨hcand, ?_, ?_⟩
  · rw [evalChoice_events, evalOutcomes_eq_map, hcand]
    rfl
  · rw [evalChoice_ev, evalOutcomes_eq_map, hcand]
    show F.div (sumF []) (F.num ((0 : Nat) : ℚ)) = F.nan
    rw [sumF, Nat.cast_zero]
    show F.div (F.num 0) (F.num 0) = F.nan
    rw [F.div]
    norm_num

/-- C10 witness: a history holding the whole deck. -/
theorem c10_full_history_nan_witness :
    (∀ card ∈ deck_iter, card ∈ deck_iter) ∧
    (candidates deck_iter = [] ∧
      (evalChoice Cashout (F.num 1) deck_iter).random_events = [] ∧
      (evalChoice Cashout (F.num 1) deck_iter).expected_value = F.nan) :=
  ⟨fun _ hc => hc, c10_full_history_nan Cashout (F.num 1) deck_iter (fun _ hc => hc)⟩

/-- C4: a solved tree's outcome count is the sum, over all its choices and
all their candidate-card outcomes, of each outcome's count; an outcome with
no child tree (Lost or Leaf) counts 1 and a child outcome counts its child
tree's own outcome count; a single-level decision (every choice without a
next decision) of `k` choices over `m` remaining cards counts `k * m`. -/
theorem c4_outcome_count_consistency (d : List Choice) (pot : F)
    (h : List PlayingCard) :
    (computeTree d pot h).outcomes =
      ((computeTree d pot h).choices.map
        (fun ce => (ce.random_events.map REOutcome.count).sum)).sum
    ∧ (∀ o : REOutcome, o.next_decision_tree = none → o.count = 1)
    ∧ (∀ (o : REOutcome) (t : DDTree), o.next_decision_tree = some t →
        o.count = t.outcomes)
    ∧ ((∀ c ∈ d, c.next = none) →
        (computeTree d pot h).outcomes = d.length * (candidates h).length) := by
  refine ⟨?_, ?_, ?_, ?_⟩
  · rw [computeTree_outcomes, computeTree_choices]
  · intro o ho
    rw [REOutcome.count, ho]
    rfl
  · intro o t ho
    rw [REOutcome.count, ho]
    rfl
  · intro hall
    rw [computeTree_outcomes, evalChoices_eq_map, List.map_map]
    have hper : ∀ c ∈ d,
        ((fun ce => (ce.random_events.map REOutcome.count).sum) ∘
          fun c => evalChoice c pot h) c = (candidates h).length := by
      intro c hc
      simp only [Function.comp_def, evalChoice_events, evalOutcomes_eq_map,
        List.map_map]
      rw [List.map_congr_left
        (fun card _ => evalOutcome_count_one card c pot h (hall c hc))]
      simp [List.map_const', List.sum_replicate]
    rw [List.map_congr_left hper]
    simp [List.map_const', List.sum_replicate, mul_comm]

/-- C4 witness at a concrete single-level decision. -/
theorem c4_outcome_count_consistency_witness :
    (∀ c ∈ [Cashout, Cashout], c.next = none) ∧
    (computeTree [Cashout, Cashout] (F.num 1) bigHist51).outcomes =
      (List.length [Cashout, Cashout]) * (candidates bigHist51).length :=
  ⟨by simp [Cashout, Choice.next],
    (c4_outcome_count_consistency [Cashout, Cashout] (F.num 1) bigHist51).2.2.2
      (by simp [Cashout, Choice.next])⟩

/-! ## The `max_by` fold -/

theorem F.total_cmp_gt_to_lt {a b : F} (h : F.total_cmp a b = .gt) :
    F.total_cmp b a = .lt := by
  rw [F.total_cmp_swap_eq, h]
  rfl

/-- One comparison step of `Iterator::max_by`: keep the accumulator only on
`Greater`, so later equal elements replace earlier ones. -/
def maxStep (a b : ChoiceEval) : ChoiceEval :=
  if F.total_cmp a.expected_value b.expected_value = .gt then a else b

theorem maxByEV_cons (x : ChoiceEval) (xs : List ChoiceEval) :
    maxByEV (x :: xs) = some (xs.foldl maxStep x) := rfl

/-- The `max_by` fold returns the element at the largest index achieving the
maximal expected value under `total_cmp`: nothing compares greater than it,
and everything strictly after it compares less. -/
theorem foldl_maxStep_spec (xs : List ChoiceEval) : ∀ (x : ChoiceEval),
    ∃ (i : Nat) (hi : i < (x :: xs).length),
      xs.foldl maxStep x = (x :: xs).get ⟨i, hi⟩ ∧
      (∀ (j : Nat) (hj : j < (x :: xs).length),
        F.total_cmp ((x :: xs).get ⟨j, hj⟩).expected_value
          ((x :: xs).get ⟨i, hi⟩).expected_value ≠ .gt) ∧
      (∀ (j : Nat) (hj : j < (x :: xs).length), i < j →
        F.total_cmp ((x :: xs).get ⟨j, hj⟩).expected_value
          ((x :: xs).get ⟨i, hi⟩).expected_value = .lt) := by
  induction xs with
  | nil =>
    intro x
    refine ⟨0, by simp, rfl, ?_, ?_⟩
    · intro j hj
      have hj0 : j = 0 := by simpa using hj
      subst hj0
      simp [F.total_cmp_self]
    · intro j hj hij
      simp at hj
      omega
  | cons y ys ih =>
    intro x
    rw [List.foldl_cons]
    obtain ⟨i', hi', heq, hmax, hlast⟩ := ih (maxStep x y)
    by_cases hxy : F.total_cmp x.expected_value y.expected_value = .gt
    · have hstep : maxStep x y = x := by rw [maxStep, if_pos hxy]
      rw [hstep] at heq hmax hlast
      rw [hstep]
      cases i' with
      | zero =>
        refine ⟨0, by simp, heq, ?_, ?_⟩
        · intro j hj
          match j, hj with
          | 0, _ => exact hmax 0 hi'
          | 1, _ => simp [F.total_cmp_gt_to_lt hxy]
          | (j' + 2), hj =>
            exact hmax (j' + 1) (by simpa using hj)
        · intro j hj hij
          match j, hj, hij with
          | 1, _, _ => exact F.total_cmp_gt_to_lt hxy
          | (j' + 2), hj, _ =>
            exact hlast (j' + 1) (by simpa using hj) (by omega)
      | succ k =>
        refine ⟨k + 2, by simpa using hi', heq, ?_, ?_⟩
        · intro j hj
          match j, hj with
          | 0, _ => exact hmax 0 (by simp)
          | 1, _ =>
            refine F.total_cmp_ngt_trans ?_ (hmax 0 (by simp))
            simp [F.total_cmp_gt_to_lt hxy]
          | (j' + 2), hj =>
            exact hmax (j' + 1) (by simpa using hj)
        · intro j hj hij
          match j, hj, hij with
          | (j' + 2), hj, hij =>
            exact hlast (j' + 1) (by simpa using hj) (by omega)
    · have hstep : maxStep x y = y := by rw [maxStep, if_neg hxy]
      rw [hstep] at heq hmax hlast
      rw [hstep]
      refine ⟨i' + 1, by simpa using hi', heq, ?_, ?_⟩
      · intro j hj
        match j, hj with
        | 0, _ => exact F.total_cmp_ngt_trans hxy (hmax 0 (by simp))
        | (j' + 1), hj => exact hmax j' (by simpa using hj)
      · intro j hj hij
        match j, hj, hij with
        | (j' + 1), hj, hij =>
          exact hlast j' (by simpa using hj) (by omega)

/-- C3 (amended): `optimal` on a tree with at least one choice always returns
a choice (the `total_cmp` total order never leaves the comparison undefined),
that choice's expected value is maximal, and among equally-maximal choices the
LAST one in decision order is returned (every strictly later choice compares
strictly less). -/
theorem c3_amended_optimal_last_max (t : DDTree) (hne : t.choices ≠ []) :
    ∃ (i : Nat) (hi : i < t.choices.length),
      t.optimal = some (t.choices.get ⟨i, hi⟩) ∧
      (∀ (j : Nat) (hj : j < t.choices.length),
        F.total_cmp (t.choices.get ⟨j, hj⟩).expected_value
          (t.choices.get ⟨i, hi⟩).expected_value ≠ .gt) ∧
      (∀ (j : Nat) (hj : j < t.choices.length), i < j →
        F.total_cmp (t.choices.get ⟨j, hj⟩).expected_value
          (t.choices.get ⟨i, hi⟩).expected_value = .lt) := by
  obtain ⟨x, xs, hx⟩ := List.exists_cons_of_ne_nil hne
  rw [DDTree.optimal, hx, maxByEV_cons]
  obtain ⟨i, hi, heq, hmax, hlast⟩ := foldl_maxStep_spec xs x
  exact ⟨i, hi, by rw [heq], hmax, hlast⟩

def choiceA : Choice := .mk "A" (fun _ => F.num 1) none

def choiceB : Choice := .mk "B" (fun _ => F.num 1) none

/-- C3 witness for the amended theorem. -/
theorem c3_amended_optimal_last_max_witness :
    ((solve [choiceA]).choices ≠ []) ∧
    (∃ (i : Nat) (hi : i < (solve [choiceA]).choices.length),
      (solve [choiceA]).optimal = some ((solve [choiceA]).choices.get ⟨i, hi⟩) ∧
      (∀ (j : Nat) (hj : j < (solve [choiceA]).choices.length),
        F.total_cmp ((solve [choiceA]).choices.get ⟨j, hj⟩).expected_value
          ((solve [choiceA]).choices.get ⟨i, hi⟩).expected_value ≠ .gt) ∧
      (∀ (j : Nat) (hj : j < (solve [choiceA]).choices.length), i < j →
        F.total_cmp ((solve [choiceA]).choices.get ⟨j, hj⟩).expected_value
          ((solve [choiceA]).choices.get ⟨i, hi⟩).expected_value = .lt)) :=
  ⟨by rw [solve, computeTree_choices, evalChoices_eq_map]; simp,
    c3_amended_optimal_last_max (solve [choiceA])
      (by rw [solve, computeTree_choices, evalChoices_eq_map]; simp)⟩

/-- C3 counterexample to the claim as stated: two choices with equal expected
values; the claim says the FIRST maximal choice (the one named "A") is
returned, but `optimal` returns the choice named "B" — `Iterator::max_by`
keeps the LAST equally-maximal element. -/
theorem c3_counterexample_first_max :
    (solve [choiceA, choiceB]).choices.map ChoiceEval.expected_value
        = [F.num 1, F.num 1] ∧
    (solve [choiceA, choiceB]).choices.map (fun ce => ce.choice.name)
        = ["A", "B"] ∧
    ((solve [choiceA, choiceB]).optimal).map (fun ce => ce.choice.name)
        = some "B" := by
  have hA : (evalChoice choiceA (F.num 1) []).expected_value = F.num 1 :=
    evalChoice_const_one_ev choiceA (fun _ => rfl) rfl [] (by decide)
  have hB : (evalChoice choiceB (F.num 1) []).expected_value = F.num 1 :=
    evalChoice_const_one_ev choiceB (fun _ => rfl) rfl [] (by decide)
  refine ⟨?_, ?_, ?_⟩
  · rw [solve, computeTree_choices, evalChoices_eq_map]
    simp [hA, hB]
  · rw [solve, computeTree_choices, evalChoices_eq_map]
    simp [evalChoice_choice, choiceA, choiceB, Choice.name]
  · rw [solve, computeTree_optimal, evalChoices_eq_map]
    rw [List.map_cons, List.map_cons, List.map_nil, maxByEV_cons,
      List.foldl_cons, List.foldl_nil]
    have hstep : maxStep (evalChoice choiceA (F.num 1) [])
        (evalChoice choiceB (F.num 1) []) = evalChoice choiceB (F.num 1) [] := by
      rw [maxStep, hA, hB, F.total_cmp_self]
      simp
    rw [hstep]
    simp [evalChoice_choice, choiceB, Choice.name]

/-! ## Card formatting and parsing -/

theorem find_eq_of_unique {α : Type} (l : List α) (p : α → Bool) (c : α)
    (hc : c ∈ l) (hpc : p c = true)
    (huniq : ∀ d ∈ l, p d = true → d = c) : l.find? p = some c := by
  induction l with
  | nil => cases hc
  | cons a as ih =>
    cases hpa : p a with
    | true =>
      have ha : a = c := huniq a (List.mem_cons_self a as) hpa
      rw [List.find?_cons, hpa]
      show some a = some c
      rw [ha]
    | false =>
      rw [List.find?_cons, hpa]
      rcases List.mem_cons.mp hc with hca | hcas
      · subst hca
        rw [hpc] at hpa
        cases hpa
      · exact ih hcas (fun d hd hpd => huniq d (List.mem_cons_of_mem a hd) hpd)

/-- C8: for every deck card, parsing any case variant of its formatted label
(in particular the label itself) returns the original card: parsing is
case-insensitive and format/parse round-trips. -/
theorem c8_format_parse_roundtrip (c : PlayingCard) (hc : c ∈ deck_iter)
    (s : String) (hs : strToUpper s = strToUpper (PlayingCard.fmt c)) :
    PlayingCard.from_str s = some c := by
  have hupper : ∀ d ∈ deck_iter, strToUpper (PlayingCard.fmt d) = PlayingCard.fmt d := by
    decide
  have hinj : ∀ a ∈ deck_iter, ∀ b ∈ deck_iter,
      PlayingCard.fmt a = PlayingCard.fmt b → a = b := by
    decide
  rw [PlayingCard.from_str, hs, hupper c hc]
  apply find_eq_of_unique deck_iter _ c hc
  · simp
  · intro d hd hpd
    exact hinj d hd c hc (by simpa using hpd)

/-- C8 witness: the 2 of hearts, parsed from a lower-case label. -/
theorem c8_format_parse_roundtrip_witness :
    ((⟨0⟩ : PlayingCard) ∈ deck_iter ∧
      strToUpper "2h" = strToUpper (PlayingCard.fmt ⟨0⟩)) ∧
    PlayingCard.from_str "2h" = some ⟨0⟩ :=
  ⟨⟨by decide, by decide⟩,
    c8_format_parse_roundtrip ⟨0⟩ (by decide) "2h" (by decide)⟩

/-! ## Color symmetry of the deck -/

/-- The color-swap involution on cards: flip bit 1 of the encoded value,
swapping hearts with spades and diamonds with clubs while preserving rank. -/
def colorSwap (c : PlayingCard) : PlayingCard :=
  ⟨if c.val % 4 < 2 then c.val + 2 else c.val - 2⟩

theorem colorSwap_colorSwap (c : PlayingCard) : colorSwap (colorSwap c) = c := by
  rcases c with ⟨v⟩
  simp only [colorSwap, PlayingCard.mk.injEq]
  split <;> split <;> omega

theorem colorSwap_injective : Function.Injective colorSwap := by
  intro a b hab
  rw [← colorSwap_colorSwap a, hab, colorSwap_colorSwap]

theorem rank_colorSwap (c : PlayingCard) : (colorSwap c).rank = c.rank := by
  rcases c with ⟨v⟩
  simp only [colorSwap, PlayingCard.rank]
  split <;> omega

theorem color_colorSwap (c : PlayingCard) : (colorSwap c).color = 1 - c.color := by
  rcases c with ⟨v⟩
  simp only [colorSwap, PlayingCard.color]
  split <;> omega

theorem color_le_one (c : PlayingCard) : c.color ≤ 1 := by
  rcases c with ⟨v⟩
  simp only [PlayingCard.color]
  omega

theorem suit_colorSwap (c : PlayingCard) :
    (colorSwap c).suit = if c.suit < 2 then c.suit + 2 else c.suit - 2 := by
  rcases c with ⟨v⟩
  simp only [colorSwap, PlayingCard.suit]
  split <;> omega

theorem suit_lt_four (c : PlayingCard) : c.suit < 4 := by
  rcases c with ⟨v⟩
  simp only [PlayingCard.suit]
  omega

theorem deck_map_colorSwap_perm : List.Perm (deck_iter.map colorSwap) deck_iter := by
  decide

theorem mem_map_colorSwap (x : PlayingCard) (h : List PlayingCard) :
    colorSwap x ∈ h.map colorSwap ↔ x ∈ h :=
  List.mem_map_of_injective colorSwap_injective

/-- The candidate enumeration from the swapped history is a permutation of
the swapped candidate enumeration. -/
theorem candidates_map_colorSwap (h : List PlayingCard) :
    List.Perm (candidates (h.map colorSwap)) ((candidates h).map colorSwap) := by
  rw [candidates, candidates]
  have h1 : List.Perm
      (deck_iter.filter (fun card => !((h.map colorSwap).contains card)))
      ((deck_iter.map colorSwap).filter
          (fun card => !((h.map colorSwap).contains card))) :=
    (deck_map_colorSwap_perm.filter _).symm
  refine h1.trans ?_
  rw [List.filter_map]
  have h2 : deck_iter.filter
        ((fun card => !((h.map colorSwap).contains card)) ∘ colorSwap)
      = deck_iter.filter (fun card => !(h.contains card)) := by
    apply List.filter_congr
    intro card _
    simp [Function.comp, mem_map_colorSwap]
    constructor
    · rintro ⟨a, ha, he⟩
      exact (colorSwap_injective he) ▸ ha
    · intro hc
      exact ⟨card, hc, rfl⟩
  rw [h2]

theorem sumF_congr_perm (l₁ l₂ : List F) (hp : List.Perm l₁ l₂) : sumF l₁ = sumF l₂ := by
  rw [sumF, sumF]
  exact hp.foldl_eq _

/-- Reindexing an expected value along the color swap: if each swapped
outcome value matches, the expected values match. -/
theorem evalChoice_ev_reindex (c c' : Choice) (p : F) (h : List PlayingCard)
    (hval : ∀ card ∈ candidates h,
      (evalOutcome (colorSwap card) c' p (h.map colorSwap)).value
        = (evalOutcome card c p h).value) :
    (evalChoice c' p (h.map colorSwap)).expected_value
      = (evalChoice c p h).expected_value := by
  rw [evalChoice_ev, evalChoice_ev, evalOutcomes_eq_map, evalOutcomes_eq_map,
    List.map_map, List.map_map]
  have hperm := candidates_map_colorSwap h
  have hlen : (candidates (h.map colorSwap)).length = (candidates h).length := by
    rw [hperm.length_eq, List.length_map]
  have hsum : sumF ((candidates (h.map colorSwap)).map
        (REOutcome.value ∘ fun card => evalOutcome card c' p (h.map colorSwap)))
      = sumF ((candidates h).map
        (REOutcome.value ∘ fun card => evalOutcome card c p h)) := by
    refine (sumF_congr_perm _ _ (hperm.map _)).trans ?_
    rw [List.map_map]
    congr 1
    apply List.map_congr_left
    intro card hcard
    simp only [Function.comp_def]
    exact hval card hcard
  rw [hsum]
  simp only [List.length_map, hlen]

/-- Matching score and matching sub-tree optima give matching outcome
values along the color swap. -/
theorem evalOutcome_value_symm (card : PlayingCard) (c c' : Choice) (p : F)
    (h : List PlayingCard)
    (hscore : c'.score (colorSwap card :: h.map colorSwap) = c.score (card :: h))
    (hnext : (c.next = none ∧ c'.next = none) ∨
      (∃ d d', c.next = some d ∧ c'.next = some d' ∧
        ∀ q, ((computeTree d' q (colorSwap card :: h.map colorSwap)).optimal).map
            ChoiceEval.expected_value
          = ((computeTree d q (card :: h)).optimal).map ChoiceEval.expected_value)) :
    (evalOutcome (colorSwap card) c' p (h.map colorSwap)).value
      = (evalOutcome card c p h).value := by
  have hnp' : F.mul p (c'.score (colorSwap card :: h.map colorSwap))
      = F.mul p (c.score (card :: h)) := by rw [hscore]
  cases hlt : F.lt (F.mul p (c.score (card :: h))) potEps with
  | true =>
    have hlt' : F.lt (F.mul p (c'.score (colorSwap card :: h.map colorSwap)))
        potEps = true := by rw [hnp']; exact hlt
    rw [evalOutcome_lost card c p h hlt,
      evalOutcome_lost (colorSwap card) c' p (h.map colorSwap) hlt']
    rfl

  | false =>
    have hlt' : F.lt (F.mul p (c'.score (colorSwap card :: h.map colorSwap)))
        potEps = false := by rw [hnp']; exact hlt
    rcases hnext with ⟨hn, hn'⟩ | ⟨d, d', hn, hn', hopt⟩
    · rw [evalOutcome_leaf card c p h hlt hn,
        evalOutcome_leaf (colorSwap card) c' p (h.map colorSwap) hlt' hn']
      simp only [REOutcome.value]
      exact hnp'
    · rw [evalOutcome_child card c p h d hlt hn,
        evalOutcome_child (colorSwap card) c' p (h.map colorSwap) d' hlt' hn']
      simp only [REOutcome.value]
      rw [hnp', hopt]

theorem foldl_maxStep_ev (l : List ChoiceEval) (x : ChoiceEval) :
    (l.foldl maxStep x).expected_value
      = l.foldl (fun a b => maxF a b.expected_value) x.expected_value := by
  induction l generalizing x with
  | nil => rfl
  | cons y ys ih =>
    rw [List.foldl_cons, List.foldl_cons, ih]
    congr 1
    by_cases hc : F.total_cmp x.expected_value y.expected_value = .gt <;>
      simp [maxStep, maxF, hc]

/-! ## The ride-the-bus game rules (src/main.rs)

Each rule's score matches on the prefix of the history it indexes (the Rust
code indexes `cards[0]`, `cards[1]`, `cards[2]`, which the solver always
supplies; shorter histories — unreachable at the call sites — score 0).
`PickSuit::next_decision` returns the empty decision and `Cashout` likewise;
both are modelled as an absent (`none`) next decision, which the solver values
identically. -/

/-- `PickSuit`: score `10/4` when the revealed card has the picked suit. -/
def pickSuitChoice (nm : String) (s : Nat) : Choice :=
  .mk nm
    (fun cards =>
      match cards with
      | c0 :: _ => if c0.suit = s then F.num (10 / 4) else F.num 0
      | [] => F.num 0)
    none

def suitDecision : List Choice :=
  [pickSuitChoice "Hearts" 0, pickSuitChoice "Diamonds" 1,
   pickSuitChoice "Spades" 2, pickSuitChoice "Clubs" 3, Cashout]

/-- `PickContained`: score `4/3` when the revealed card's rank lies inside
(resp. outside) the closed range spanned by the two previous ranks. -/
def pickContainedChoice (nm : String) (inside : Bool) : Choice :=
  .mk nm
    (fun cards =>
      match cards with
      | c0 :: c1 :: c2 :: _ =>
        if (decide (min c1.rank c2.rank ≤ c0.rank ∧
              c0.rank ≤ max c1.rank c2.rank)) = inside
        then F.num (4 / 3) else F.num 0
      | _ => F.num 0)
    (some suitDecision)

def containedDecision : List Choice :=
  [pickContainedChoice "Inside" true, pickContainedChoice "Outside" false,
   Cashout]

/-- `PickLatitude`: score `3/2` when the revealed card's rank is at least
(resp. below) the previous card's rank. -/
def pickLatitudeChoice (nm : String) (higher : Bool) : Choice :=
  .mk nm
    (fun cards =>
      match cards with
      | c0 :: c1 :: _ =>
        if (decide (c1.rank ≤ c0.rank)) = higher
        then F.num (3 / 2) else F.num 0
      | _ => F.num 0)
    (some containedDecision)

def latitudeDecision : List Choice :=
  [pickLatitudeChoice "Higher" true, pickLatitudeChoice "Lower" false, Cashout]

/-- `PickColor`: score `2` when the revealed card has the picked color. -/
def pickColorChoice (nm : String) (col : Nat) : Choice :=
  .mk nm
    (fun cards =>
      match cards with
      | c0 :: _ => if c0.color = col then F.num 2 else F.num 0
      | [] => F.num 0)
    (some latitudeDecision)

/-- The decision solved by `main`:
`DiscreteDecision::new_with_cashout([PickColor::Red, PickColor::Black])`. -/
def rideTheBusDecision : List Choice :=
  [pickColorChoice "Red" 0, pickColorChoice "Black" 1, Cashout]

/-! ## Color symmetry of the game -/

theorem cashout_ev_symm (p : F) (h : List PlayingCard) :
    (evalChoice Cashout p (h.map colorSwap)).expected_value
      = (evalChoice Cashout p h).expected_value :=
  evalChoice_ev_reindex Cashout Cashout p h
    (fun card _ =>
      evalOutcome_value_symm card Cashout Cashout p h rfl (Or.inl ⟨rfl, rfl⟩))

theorem pickSuit_score_symm (nm nm' : String) (s s' : Nat)
    (hss : ∀ c : PlayingCard, ((colorSwap c).suit = s) ↔ (c.suit = s')) :
    ∀ hist, (pickSuitChoice nm s).score (hist.map colorSwap)
      = (pickSuitChoice nm' s').score hist := by
  intro hist
  rcases hist with _ | ⟨c0, rest⟩
  · rfl
  · simp only [pickSuitChoice, Choice.score, List.map_cons]
    by_cases hc : c0.suit = s'
    · rw [if_pos ((hss c0).mpr hc), if_pos hc]
    · rw [if_neg (fun he => hc ((hss c0).mp he)), if_neg hc]

theorem pickSuit_ev_symm (nm nm' : String) (s s' : Nat)
    (hss : ∀ c : PlayingCard, ((colorSwap c).suit = s) ↔ (c.suit = s'))
    (p : F) (h : List PlayingCard) :
    (evalChoice (pickSuitChoice nm s) p (h.map colorSwap)).expected_value
      = (evalChoice (pickSuitChoice nm' s') p h).expected_value :=
  evalChoice_ev_reindex (pickSuitChoice nm' s') (pickSuitChoice nm s) p h
    (fun card _ =>
      evalOutcome_value_symm card (pickSuitChoice nm' s') (pickSuitChoice nm s)
        p h (pickSuit_score_symm nm nm' s s' hss (card :: h))
        (Or.inl ⟨rfl, rfl⟩))

/-- The suit-level decision has the same optimal expected value from the
swapped history: the four suit choices permute and Cashout is invariant. -/
theorem suitDecision_optimal_symm (p : F) (h : List PlayingCard) :
    ((computeTree suitDecision p (h.map colorSwap)).optimal).map
        ChoiceEval.expected_value
      = ((computeTree suitDecision p h).optimal).map ChoiceEval.expected_value := by
  have hH := pickSuit_ev_symm "Hearts" "Spades" 0 2
    (fun c => by rw [suit_colorSwap]; have := suit_lt_four c; split <;> omega) p h
  have hD := pickSuit_ev_symm "Diamonds" "Clubs" 1 3
    (fun c => by rw [suit_colorSwap]; have := suit_lt_four c; split <;> omega) p h
  have hS := pickSuit_ev_symm "Spades" "Hearts" 2 0
    (fun c => by rw [suit_colorSwap]; have := suit_lt_four c; split <;> omega) p h
  have hC := pickSuit_ev_symm "Clubs" "Diamonds" 3 1
    (fun c => by rw [suit_colorSwap]; have := suit_lt_four c; split <;> omega) p h
  have hK := cashout_ev_symm p h
  rw [computeTree_optimal, computeTree_optimal, evalChoices_eq_map,
    evalChoices_eq_map]
  simp only [suitDecision, List.map_cons, List.map_nil, maxByEV_cons]
  rw [Option.map_some']
  rw [Option.map_some']
  congr 1
  rw [foldl_maxStep_ev, foldl_maxStep_ev]
  simp only [List.foldl_cons, List.foldl_nil]
  rw [hH, hD, hS, hC, hK]
  ac_rfl

theorem pickContained_score_symm (nm : String) (b : Bool) :
    ∀ hist, (pickContainedChoice nm b).score (hist.map colorSwap)
      = (pickContainedChoice nm b).score hist := by
  intro hist
  rcases hist with _ | ⟨c0, _ | ⟨c1, _ | ⟨c2, rest⟩⟩⟩ <;>
    simp [pickContainedChoice, Choice.score, rank_colorSwap]

theorem containedDecision_optimal_symm (p : F) (h : List PlayingCard) :
    ((computeTree containedDecision p (h.map colorSwap)).optimal).map
        ChoiceEval.expected_value
      = ((computeTree containedDecision p h).optimal).map
        ChoiceEval.expected_value := by
  have hsub : ∀ (nm : String) (b : Bool),
      (evalChoice (pickContainedChoice nm b) p (h.map colorSwap)).expected_value
        = (evalChoice (pickContainedChoice nm b) p h).expected_value := by
    intro nm b
    refine evalChoice_ev_reindex (pickContainedChoice nm b)
      (pickContainedChoice nm b) p h (fun card _ => ?_)
    refine evalOutcome_value_symm card (pickContainedChoice nm b)
      (pickContainedChoice nm b) p h
      (pickContained_score_symm nm b (card :: h)) (Or.inr ?_)
    exact ⟨suitDecision, suitDecision, rfl, rfl,
      fun q => suitDecision_optimal_symm q (card :: h)⟩
  have hIn := hsub "Inside" true
  have hOut := hsub "Outside" false
  have hK := cashout_ev_symm p h
  rw [computeTree_optimal, computeTree_optimal, evalChoices_eq_map,
    evalChoices_eq_map]
  simp only [containedDecision, List.map_cons, List.map_nil, maxByEV_cons]
  rw [Option.map_some']
  rw [Option.map_some']
  congr 1
  rw [foldl_maxStep_ev, foldl_maxStep_ev]
  simp only [List.foldl_cons, List.foldl_nil]
  rw [hIn, hOut, hK]

theorem pickLatitude_score_symm (nm : String) (b : Bool) :
    ∀ hist, (pickLatitudeChoice nm b).score (hist.map colorSwap)
      = (pickLatitudeChoice nm b).score hist := by
  intro hist
  rcases hist with _ | ⟨c0, _ | ⟨c1, rest⟩⟩ <;>
    simp [pickLatitudeChoice, Choice.score, rank_colorSwap]

theorem latitudeDecision_optimal_symm (p : F) (h : List PlayingCard) :
    ((computeTree latitudeDecision p (h.map colorSwap)).optimal).map
        ChoiceEval.expected_value
      = ((computeTree latitudeDecision p h).optimal).map
        ChoiceEval.expected_value := by
  have hsub : ∀ (nm : String) (b : Bool),
      (evalChoice (pickLatitudeChoice nm b) p (h.map colorSwap)).expected_value
        = (evalChoice (pickLatitudeChoice nm b) p h).expected_value := by
    intro nm b
    refine evalChoice_ev_reindex (pickLatitudeChoice nm b)
      (pickLatitudeChoice nm b) p h (fun card _ => ?_)
    refine evalOutcome_value_symm card (pickLatitudeChoice nm b)
      (pickLatitudeChoice nm b) p h
      (pickLatitude_score_symm nm b (card :: h)) (Or.inr ?_)
    exact ⟨containedDecision, containedDecision, rfl, rfl,
      fun q => containedDecision_optimal_symm q (card :: h)⟩
  have hHi := hsub "Higher" true
  have hLo := hsub "Lower" false
  have hK := cashout_ev_symm p h
  rw [computeTree_optimal, computeTree_optimal, evalChoices_eq_map,
    evalChoices_eq_map]
  simp only [latitudeDecision, List.map_cons, List.map_nil, maxByEV_cons]
  rw [Option.map_some']
  rw [Option.map_some']
  congr 1
  rw [foldl_maxStep_ev, foldl_maxStep_ev]
  simp only [List.foldl_cons, List.foldl_nil]
  rw [hHi, hLo, hK]

theorem pickColor_score_symm :
    ∀ hist, (pickColorChoice "Black" 1).score (hist.map colorSwap)
      = (pickColorChoice "Red" 0).score hist := by
  intro hist
  rcases hist with _ | ⟨c0, rest⟩
  · rfl
  · simp only [pickColorChoice, Choice.score, List.map_cons]
    have h1 := color_colorSwap c0
    have h2 := color_le_one c0
    by_cases hc : c0.color = 0
    · rw [if_pos (by omega), if_pos hc]
    · rw [if_neg (by omega), if_neg hc]

/-- C7: solving `{Red, Black, Cashout}` from the empty history at pot `1.0`
gives Red and Black numerically equal expected values (by the color-swap
symmetry of the deck) and Cashout exactly `1.0`. -/
theorem c7_red_black_cashout_symmetry :
    ∃ evR evB evK,
      (solve rideTheBusDecision).choices.map ChoiceEval.expected_value
        = [evR, evB, evK] ∧ evR = evB ∧ evK = F.num 1 := by
  refine ⟨(evalChoice (pickColorChoice "Red" 0) (F.num 1) []).expected_value,
    (evalChoice (pickColorChoice "Black" 1) (F.num 1) []).expected_value,
    (evalChoice Cashout (F.num 1) []).expected_value, ?_, ?_, ?_⟩
  · rw [solve, computeTree_choices, evalChoices_eq_map]
    simp [rideTheBusDecision]
  · refine (evalChoice_ev_reindex (pickColorChoice "Red" 0)
      (pickColorChoice "Black" 1) (F.num 1) [] (fun card _ => ?_)).symm
    refine evalOutcome_value_symm card (pickColorChoice "Red" 0)
      (pickColorChoice "Black" 1) (F.num 1) []
      (pickColor_score_symm (card :: [])) (Or.inr ?_)
    exact ⟨latitudeDecision, latitudeDecision, rfl, rfl,
      fun q => latitudeDecision_optimal_symm q [card]⟩
  · exact evalChoice_const_one_ev Cashout (fun _ => rfl) rfl [] (by decide)
